import Mathlib

set_option maxRecDepth 40000

/-!
Shallow embedding of the triplication encoder (`encode.c`) and majority-vote
decoder (`decode.c`) of the ECE434EncodingProject character-device pair.

Bytes are modelled as natural numbers below 256.  The C `char` may be signed,
but every operation the drivers perform on bytes (`&`, `|`, `~`, comparison
with zero, stores truncating back to `char`) depends only on the low 8 bits
of each operand, so the `Nat`-with-`%256` model is faithful; the C integer
complement `~a` acts on the low 8 bits as `a ^^^ 255`.

Each `dev_write` is modelled as a function from the written byte sequence to
the device's pending output (the first `messageSize` cells of `message[]`,
which is exactly what the next `dev_read` delivers).  A write of length 0
performs the out-of-bounds store `temp[-1] = 0` in the C source; the model
returns `none` in that case.  Scratch-buffer (`temp`) state from previous
writes is modelled where a claim needs it (`encTempStep` / `decTempStep`);
the single-write functions start from the zero-initialised static buffers.
-/

namespace RepeatCode

/-- Reconstruction expression computed by `decode.c` line 163:
`(a&b&c) | (~a&b&c) | (a&~b&c) | (a&b&~c)` on bytes, with the C complement
restricted to the low 8 bits. -/
def maj4 (a b c : Nat) : Nat :=
  (a &&& b &&& c) ||| ((a ^^^ 255) &&& b &&& c) ||| (a &&& (b ^^^ 255) &&& c) |||
    (a &&& b &&& (c ^^^ 255))

/-- The spec's compact three-term majority form `(a&b) | (b&c) | (a&c)`. -/
def maj3 (a b c : Nat) : Nat :=
  (a &&& b) ||| (b &&& c) ||| (a &&& c)

/-- Three consecutive copies of one byte, as stored by `encode.c` line 159. -/
def triple (b : Nat) : List Nat := [b, b, b]

/-- Encoder scratch buffer (`temp[256]`) after a write of `x` on a fresh
device: `copy_from_user` fills the first `min len 256` cells, the forced
terminator zeroes cell `len-1`, the remaining cells keep their static zero
initialisation.  Meaningful for `1 ≤ len` (length 0 is the out-of-bounds
store, handled in `encWrite`). -/
def encTempBuf (x : List Nat) : List Nat :=
  (x.take 256).take ((x.take 256).length - 1) ++ [0] ++
    List.replicate (256 - (x.take 256).length) 0

/-- The prefix of the encoder scratch scanned by the `while(temp[i])` loop:
the maximal run of nonzero bytes from index 0. -/
def encScanPrefix (x : List Nat) : List Nat :=
  (encTempBuf x).takeWhile (fun b => b != 0)

/-- Encoder `dev_write` on a fresh device: the pending output afterwards is
`message[0..messageSize-1]` = each scanned byte tripled, then the stored
terminator `message[3*i] = 0`.  `none` models the out-of-bounds store
`temp[len-1]` when `len = 0`. -/
def encWrite (x : List Nat) : Option (List Nat) :=
  if x.length = 0 then none
  else some ((encScanPrefix x).flatMap triple ++ [0])

/-- Indices of `message[]` stored by the encoder's write: `3i, 3i+1, 3i+2`
for each scanned index `i`, then the terminator store at `3*ifinal`;
`p` is the number of loop iterations (`encScanPrefix` length). -/
def encStoreIdxs (p : Nat) : List Nat :=
  ((List.range p).flatMap fun i => [3 * i, 3 * i + 1, 3 * i + 2]) ++ [3 * p]

/-- Decoder scratch buffer (`temp[769]`) after a write of `y` on a fresh
device, mirroring `encTempBuf` with bound 769. -/
def decTempBuf (y : List Nat) : List Nat :=
  (y.take 769).take ((y.take 769).length - 1) ++ [0] ++
    List.replicate (769 - (y.take 769).length) 0

/-- Decoder scan loop of `decode.c` lines 159-165: starting at a triplet
boundary, stop at a zero byte, otherwise reconstruct `maj4` of the triplet
and advance by 3.  The `none` results model the reads of `temp[i+1]`,
`temp[i+2]` or the next `temp[i]` falling outside the 769-byte buffer; they
are proved unreachable from `decTempBuf`. -/
def decScan : List Nat → Option (List Nat)
  | [] => none
  | [a] => if a = 0 then some [] else none
  | [a, _] => if a = 0 then some [] else none
  | a :: b :: c :: rest =>
      if a = 0 then some [] else (decScan rest).map fun out => maj4 a b c :: out

/-- Decoder `dev_write` on a fresh device: pending output afterwards is the
list of reconstructed bytes (`messageSize = i/3` of them). -/
def decWrite (y : List Nat) : Option (List Nat) :=
  if y.length = 0 then none else decScan (decTempBuf y)

/-- A triplet of received bytes as grouped by the decoder's scan. -/
def flatTriples (ts : List (Nat × Nat × Nat)) : List Nat :=
  ts.flatMap fun t => [t.1, t.2.1, t.2.2]

/-- The byte the decoder reconstructs from one triplet. -/
def majT (t : Nat × Nat × Nat) : Nat := maj4 t.1 t.2.1 t.2.2

/-- A triplet `(b, b, b)` with copy number `t` (0, 1 or 2) replaced by `v`:
the shape of one encoded triplet after corruption of a single copy. -/
def corruptTuple (t v b : Nat) : Nat × Nat × Nat :=
  if t = 0 then (v, b, b) else if t = 1 then (b, v, b) else (b, b, v)

/-- Shared state of one character device as far as the read path observes
it: the `message[]` buffer, `messageSize`, and the `numberOpens` counter. -/
structure DevState where
  buf : List Nat
  msgSize : Nat
  numberOpens : Nat
deriving DecidableEq

/-- `dev_read` (identical in both drivers): `copy_to_user` delivers
`messageSize` bytes of `message[]`, `sendLength` snapshots `messageSize`,
`messageSize` is set to 0 unconditionally, then the return value is
`sendLength` on success and `-EFAULT = -14` when the copy failed.  `fail`
models `copy_to_user` reporting a nonzero uncopied count; the result is
`(return value, bytes delivered, new state)`. -/
def devRead (fail : Bool) (s : DevState) : Int × List Nat × DevState :=
  let sendLength := s.msgSize
  let s' : DevState := { s with msgSize := 0 }
  if fail then (-14, [], s') else ((sendLength : Int), s.buf.take sendLength, s')

/-- Operations a userspace caller can perform on a device (`dev_open`, a
successful `dev_read`, `dev_write` of a byte sequence). -/
inductive DevOp where
  | opn : DevOp
  | read : DevOp
  | write : List Nat → DevOp
deriving DecidableEq

/-- One step of the device: `dev_open` only increments `numberOpens`,
`dev_read` is the code's read path, and a write transforms the state by an
arbitrary function `W` (the claims about the read path hold for any write
behaviour, so both drivers are covered). -/
def devStep (W : DevState → List Nat → DevState) (s : DevState) : DevOp → DevState
  | .opn => { s with numberOpens := s.numberOpens + 1 }
  | .read => (devRead false s).2.2
  | .write x => W s x

/-- Run a sequence of operations from a state. -/
def devRun (W : DevState → List Nat → DevState) (s : DevState)
    (ops : List DevOp) : DevState :=
  ops.foldl (devStep W) s

/-- Device state right after module load: `message[] = {0}` (buffer length
769 for the encoder, 256 for the decoder), `messageSize = 0`,
`numberOpens = 0`. -/
def devInit (bufLen : Nat) : DevState :=
  ⟨List.replicate bufLen 0, 0, 0⟩

/-- Effect of one encoder `dev_write` of `x` (with `1 ≤ len`) on the
persistent scratch buffer `temp[256]`: `copy_from_user` overwrites the
first `min len 256` cells, then the forced terminator zeroes cell
`len - 1`.  (A write of length 0 is the out-of-bounds store and is not
modelled by this step.) -/
def encTempStep (t : List Nat) (x : List Nat) : List Nat :=
  ((x.take 256) ++ t.drop (x.take 256).length).set ((x.take 256).length - 1) 0

/-- Encoder scratch buffer after a sequence of writes, each of length ≥ 1,
starting from the zero-initialised `temp[256]`. -/
def encTempRun (ws : List (List Nat)) : List Nat :=
  ws.foldl encTempStep (List.replicate 256 0)

/-- Effect of one decoder `dev_write` (length ≥ 1) on `temp[769]`. -/
def decTempStep (t : List Nat) (y : List Nat) : List Nat :=
  ((y.take 769) ++ t.drop (y.take 769).length).set ((y.take 769).length - 1) 0

/-- Decoder scratch buffer after a sequence of writes, each of length ≥ 1,
starting from the zero-initialised `temp[769]`. -/
def decTempRun (ws : List (List Nat)) : List Nat :=
  ws.foldl decTempStep (List.replicate 769 0)

/-! ### Bit-level facts about the majority expressions -/

theorem testBit_of_byte_high {a k : Nat} (ha : a < 256) (hk : 8 ≤ k) :
    a.testBit k = false := by
  apply Nat.testBit_lt_two_pow
  calc a < 256 := ha
    _ = 2 ^ 8 := by norm_num
    _ ≤ 2 ^ k := Nat.pow_le_pow_right (by norm_num) hk

theorem testBit_255 {k : Nat} (hk : k < 8) : (255 : Nat).testBit k = true := by
  interval_cases k <;> decide

/-- Per-bit behaviour of the decoder's reconstruction expression: bit `k` of
`maj4 a b c` is the majority vote of bit `k` of `a`, `b`, `c`. -/
theorem maj4_testBit {a b c : Nat} (ha : a < 256) (hb : b < 256) (hc : c < 256)
    (k : Nat) :
    (maj4 a b c).testBit k =
      ((a.testBit k && b.testBit k) || (b.testBit k && c.testBit k) ||
        (a.testBit k && c.testBit k)) := by
  by_cases hk : k < 8
  · have h255 : (255 : Nat).testBit k = true := testBit_255 hk
    simp only [maj4, Nat.testBit_lor, Nat.testBit_land, Nat.testBit_xor, h255]
    cases a.testBit k <;> cases b.testBit k <;> cases c.testBit k <;> rfl
  · have ha' : a.testBit k = false := testBit_of_byte_high ha (le_of_not_lt hk)
    have hb' : b.testBit k = false := testBit_of_byte_high hb (le_of_not_lt hk)
    have hc' : c.testBit k = false := testBit_of_byte_high hc (le_of_not_lt hk)
    simp [maj4, Nat.testBit_lor, Nat.testBit_land, Nat.testBit_xor, ha', hb', hc']

theorem maj3_testBit (a b c k : Nat) :
    (maj3 a b c).testBit k =
      ((a.testBit k && b.testBit k) || (b.testBit k && c.testBit k) ||
        (a.testBit k && c.testBit k)) := by
  simp [maj3, Nat.testBit_lor, Nat.testBit_land]

theorem maj4_eq_maj3 {a b c : Nat} (ha : a < 256) (hb : b < 256) (hc : c < 256) :
    maj4 a b c = maj3 a b c :=
  Nat.eq_of_testBit_eq fun k => (maj4_testBit ha hb hc k).trans (maj3_testBit a b c k).symm

/-- Majority of three equal copies is the copy itself. -/
theorem maj4_same {b : Nat} (hb : b < 256) : maj4 b b b = b :=
  Nat.eq_of_testBit_eq fun k => by
    rw [maj4_testBit hb hb hb k]; cases b.testBit k <;> rfl

/-- Corruption of the first copy is voted out. -/
theorem maj4_recover_first {e b : Nat} (he : e < 256) (hb : b < 256) :
    maj4 e b b = b :=
  Nat.eq_of_testBit_eq fun k => by
    rw [maj4_testBit he hb hb k]; cases e.testBit k <;> cases b.testBit k <;> rfl

/-- Corruption of the second copy is voted out. -/
theorem maj4_recover_second {e b : Nat} (he : e < 256) (hb : b < 256) :
    maj4 b e b = b :=
  Nat.eq_of_testBit_eq fun k => by
    rw [maj4_testBit hb he hb k]; cases e.testBit k <;> cases b.testBit k <;> rfl

/-- Corruption of the third copy is voted out. -/
theorem maj4_recover_third {e b : Nat} (he : e < 256) (hb : b < 256) :
    maj4 b b e = b :=
  Nat.eq_of_testBit_eq fun k => by
    rw [maj4_testBit hb hb he k]; cases e.testBit k <;> cases b.testBit k <;> rfl

/-- A nonzero partial-group start byte voted against two zero bytes gives 0. -/
theorem maj4_zero_zero {b : Nat} (hb : b < 256) : maj4 b 0 0 = 0 :=
  Nat.eq_of_testBit_eq fun k => by
    rw [maj4_testBit hb (by norm_num) (by norm_num) k]
    simp [Nat.zero_testBit]

/-! ### List helpers -/

theorem takeWhile_append_zero {p : Nat → Bool} (hp : p 0 = false) :
    ∀ l1 l2 : List Nat, (l1 ++ 0 :: l2).takeWhile p = l1.takeWhile p := by
  intro l1 l2
  induction l1 with
  | nil => simp [List.takeWhile_cons, hp]
  | cons a l1 ih =>
      by_cases hpa : p a
      · simp [List.takeWhile_cons, hpa, ih]
      · simp [List.takeWhile_cons, hpa]

theorem takeWhile_ne_zero_of_all {l : List Nat} (h : ∀ b ∈ l, b ≠ 0) :
    l.takeWhile (fun b => b != 0) = l :=
  List.takeWhile_eq_self_iff.mpr fun b hb => by
    simpa [bne_iff_ne] using h b hb

theorem length_flatMap_triple (l : List Nat) :
    (l.flatMap triple).length = 3 * l.length := by
  induction l with
  | nil => rfl
  | cons a l ih => simp [triple, ih] ; omega

/-! ### Characterisation of the encoder's write -/

/-- For a nonempty write within the 256-byte bound, the scratch buffer is the
input with its last byte replaced by the forced terminator, followed by the
zero-initialised tail. -/
theorem encTempBuf_eq {x : List Nat} (h2 : x.length ≤ 256) :
    encTempBuf x = x.dropLast ++ 0 :: List.replicate (256 - x.length) 0 := by
  unfold encTempBuf
  rw [List.take_of_length_le h2, ← List.dropLast_eq_take]
  simp

/-- The scan prefix of a nonempty in-bounds write is the maximal nonzero run
of the input with its final byte removed. -/
theorem encScanPrefix_eq {x : List Nat} (h2 : x.length ≤ 256) :
    encScanPrefix x = x.dropLast.takeWhile (fun b => b != 0) := by
  unfold encScanPrefix
  rw [encTempBuf_eq h2, takeWhile_append_zero (by rfl)]

/-- Unfolding of the encoder write: the pending output triples the maximal
nonzero run of the input minus its final byte, then appends the stored
terminator. -/
theorem encWrite_takeWhile {x : List Nat} (h1 : x ≠ []) (h2 : x.length ≤ 256) :
    encWrite x =
      some ((x.dropLast.takeWhile (fun b => b != 0)).flatMap triple ++ [0]) := by
  unfold encWrite
  rw [if_neg (by simpa using h1), encScanPrefix_eq h2]

/-- Encoder write on an input whose first `len - 1` bytes are nonzero. -/
theorem encWrite_eq {x : List Nat} (h1 : x ≠ []) (h2 : x.length ≤ 256)
    (hz : ∀ b ∈ x.dropLast, b ≠ 0) :
    encWrite x = some (x.dropLast.flatMap triple ++ [0]) := by
  rw [encWrite_takeWhile h1 h2, takeWhile_ne_zero_of_all hz]

/-! ### Characterisation of the decoder's write -/

theorem decTempBuf_eq {y : List Nat} (h2 : y.length ≤ 769) :
    decTempBuf y = y.dropLast ++ 0 :: List.replicate (769 - y.length) 0 := by
  unfold decTempBuf
  rw [List.take_of_length_le h2, ← List.dropLast_eq_take]
  simp

/-! ### Decoder scan lemmas -/

theorem decScan_zero_cons (l : List Nat) : decScan (0 :: l) = some [] := by
  match l with
  | [] => rfl
  | [_] => rfl
  | _ :: _ :: _ => rfl

/-- Scanning a run of triplets with nonzero start bytes followed by a zero
reconstructs `majT` of each triplet and stops at the zero. -/
theorem decScan_flat (ts : List (Nat × Nat × Nat)) (rest : List Nat)
    (h : ∀ t ∈ ts, t.1 ≠ 0) :
    decScan (flatTriples ts ++ 0 :: rest) = some (ts.map majT) := by
  induction ts with
  | nil => simpa [flatTriples] using decScan_zero_cons rest
  | cons t ts ih =>
      obtain ⟨a, b, c⟩ := t
      have ha : a ≠ 0 := h (a, b, c) (by simp)
      have ih' := ih fun u hu => h u (List.mem_cons_of_mem _ hu)
      show decScan (a :: b :: c :: (flatTriples ts ++ 0 :: rest)) =
        some (majT (a, b, c) :: ts.map majT)
      simp only [decScan, if_neg ha, ih', Option.map_some]
      rfl

/-- Scanning a run of nonzero-start triplets followed by a nonzero byte and
at least three zeros: the trailing partial group contributes one extra
reconstructed byte. -/
theorem decScan_flat_partial (ts : List (Nat × Nat × Nat)) (b k : Nat)
    (h : ∀ t ∈ ts, t.1 ≠ 0) (hb : b ≠ 0) (hk : 3 ≤ k) :
    decScan (flatTriples ts ++ b :: List.replicate k 0) =
      some (ts.map majT ++ [maj4 b 0 0]) := by
  induction ts with
  | nil =>
      obtain ⟨k', rfl⟩ : ∃ k', k = k' + 3 := ⟨k - 3, by omega⟩
      simp only [flatTriples, List.flatMap_nil, List.nil_append, List.map_nil]
      have hrep : List.replicate (k' + 3) (0 : Nat) =
          0 :: 0 :: 0 :: List.replicate k' 0 := by
        simp [List.replicate_succ]
      rw [hrep]
      simp [decScan, hb, decScan_zero_cons]
  | cons t ts ih =>
      obtain ⟨a, u, v⟩ := t
      have ha : a ≠ 0 := h (a, u, v) (by simp)
      have ih' := ih fun w hw => h w (List.mem_cons_of_mem _ hw)
      show decScan (a :: u :: v :: (flatTriples ts ++ b :: List.replicate k 0)) =
        some (majT (a, u, v) :: (ts.map majT ++ [maj4 b 0 0]))
      simp only [decScan, if_neg ha, ih', Option.map_some]
      rfl

/-- The scan always stops inside the buffer when a zero byte sits at a
triplet-start position: `P` is the part of the buffer before such a zero. -/
theorem decScan_isSome_of_zero (P R : List Nat) (h : P.length % 3 = 0) :
    (decScan (P ++ 0 :: R)).isSome = true := by
  match P with
  | [] => simp [decScan_zero_cons]
  | [_] => simp at h
  | [_, _] => simp at h
  | a :: b :: c :: P' =>
      by_cases ha : a = 0
      · simp [decScan, ha]
      · have h' : P'.length % 3 = 0 := by simp at h ⊢; omega
        have := decScan_isSome_of_zero P' R h'
        simp only [List.cons_append, decScan, if_neg ha]
        simpa using this
termination_by P.length

/-- Each reconstructed byte consumes exactly three buffer bytes, so the
number of stores into `message[]` is at most a third of the buffer length. -/
theorem decScan_length_le (T out : List Nat) (h : decScan T = some out) :
    3 * out.length ≤ T.length := by
  match T with
  | [] => simp [decScan] at h
  | [a] =>
      by_cases ha : a = 0
      · simp only [decScan, if_pos ha] at h
        obtain rfl := Option.some_inj.mp h
        simp
      · simp [decScan, ha] at h
  | [a, b] =>
      by_cases ha : a = 0
      · simp only [decScan, if_pos ha] at h
        obtain rfl := Option.some_inj.mp h
        simp
      · simp [decScan, ha] at h
  | a :: b :: c :: rest =>
      by_cases ha : a = 0
      · simp only [decScan, if_pos ha] at h
        obtain rfl := Option.some_inj.mp h
        simp
      · simp only [decScan, if_neg ha, Option.map_eq_some'] at h
        obtain ⟨out', hout', rfl⟩ := h
        have := decScan_length_le rest out' hout'
        simp only [List.length_cons]
        omega
termination_by T.length

/-! ### More helper lemmas -/

theorem flatTriples_map_diag (l : List Nat) :
    flatTriples (l.map fun b => (b, b, b)) = l.flatMap triple := by
  induction l with
  | nil => rfl
  | cons a l ih => simp [flatTriples, triple] at ih ⊢; exact ih

/-- The encoder scan stops after at most 255 iterations: the scratch buffer
always holds a zero at or before index 255. -/
theorem encScanPrefix_le (x : List Nat) : (encScanPrefix x).length ≤ 255 := by
  unfold encScanPrefix encTempBuf
  rw [List.append_assoc]
  have h0 : ([0] ++ List.replicate (256 - (x.take 256).length) 0 : List Nat) =
      0 :: List.replicate (256 - (x.take 256).length) 0 := rfl
  rw [h0, takeWhile_append_zero (by rfl)]
  have h1 := (List.takeWhile_sublist (l := (x.take 256).take ((x.take 256).length - 1))
    (fun b => b != 0)).length_le
  have h2 : ((x.take 256).take ((x.take 256).length - 1)).length ≤ 255 := by
    have := List.length_take_le 256 x
    simp only [List.length_take]
    omega
  omega

/-- All encoder stores land inside `message[769]` whenever the scan runs at
most 255 iterations. -/
theorem encStoreIdxs_lt {p : Nat} (hp : p ≤ 255) :
    ∀ j ∈ encStoreIdxs p, j < 769 := by
  intro j hj
  simp only [encStoreIdxs, List.mem_append, List.mem_flatMap, List.mem_range,
    List.mem_singleton] at hj
  rcases hj with ⟨i, hi, hj⟩ | hj
  · simp only [List.mem_cons, List.not_mem_nil] at hj
    rcases hj with rfl | rfl | rfl | h
    · omega
    · omega
    · omega
    · exact absurd h (by simp)
  · omega

/-! ### Claim C2 (confirmed): the reconstruction is bit-parallel majority -/

/-- C2: for every triplet `(a, b, c)` the decoder's write consumes, the
reconstructed byte is the code's four-term expression `maj4 a b c`; bit `k`
of it is `majority(a[k], b[k], c[k])`, and the four-term disjunction is
bit-for-bit equal to the spec's three-term form `(a&b)|(b&c)|(a&c)`. -/
theorem decoded_byte_is_bitwise_majority (a b c : Nat)
    (ha : a < 256) (hb : b < 256) (hc : c < 256) :
    (∀ rest : List Nat, decScan (a :: b :: c :: rest) =
        if a = 0 then some [] else (decScan rest).map fun out => maj4 a b c :: out) ∧
    (∀ k, (maj4 a b c).testBit k =
        ((a.testBit k && b.testBit k) || (b.testBit k && c.testBit k) ||
          (a.testBit k && c.testBit k))) ∧
    maj4 a b c = maj3 a b c :=
  ⟨fun _ => rfl, maj4_testBit ha hb hc, maj4_eq_maj3 ha hb hc⟩

theorem decoded_byte_is_bitwise_majority_witness :
    maj4 65 67 97 = maj3 65 67 97 ∧ maj4 65 67 97 = 65 :=
  ⟨(decoded_byte_is_bitwise_majority 65 67 97 (by decide) (by decide)
      (by decide)).2.2,
    by decide⟩

/-! ### Claim C1 (corrected): the round trip drops the final byte -/

/-- C1 counterexample: the one-byte input `[65]` (no zero byte, length ≤ 256)
round-trips to the empty sequence, not to itself: the encoder's forced
terminator overwrites the only byte. -/
theorem roundtrip_cex :
    (encWrite [65]).bind decWrite = some [] ∧
      some ([] : List Nat) ≠ some [65] :=
  ⟨by rfl, by decide⟩

/-- C1 amended: for a nonempty zero-free input of length ≤ 256, feeding the
encoder's output to the decoder recovers the input with its final byte
removed (the forced terminator `temp[len-1] = 0` erases it). -/
theorem roundtrip_drops_last (x : List Nat) (h1 : x ≠ []) (h2 : x.length ≤ 256)
    (hb : ∀ b ∈ x, b < 256) (hz : ∀ b ∈ x, b ≠ 0) :
    (encWrite x).bind decWrite = some x.dropLast := by
  have hzd : ∀ b ∈ x.dropLast, b ≠ 0 := fun b hbm => hz b (List.dropLast_subset x hbm)
  rw [encWrite_eq h1 h2 hzd, Option.some_bind]
  set E : List Nat := x.dropLast.flatMap triple ++ [0] with hE
  have hElen : E.length = 3 * (x.length - 1) + 1 := by
    rw [hE, List.length_append, length_flatMap_triple, List.length_dropLast]
    simp
  have hEle : E.length ≤ 769 := by omega
  have hEne : E.length ≠ 0 := by omega
  unfold decWrite
  rw [if_neg hEne, decTempBuf_eq hEle]
  have hEdrop : E.dropLast = x.dropLast.flatMap triple := by
    rw [hE]; exact List.dropLast_concat
  rw [hEdrop, ← flatTriples_map_diag]
  rw [decScan_flat _ _ (by
    intro t ht
    simp only [List.mem_map] at ht
    obtain ⟨b, hbm, rfl⟩ := ht
    exact hzd b hbm)]
  congr 1
  rw [List.map_map]
  have : ∀ b ∈ x.dropLast, (majT ∘ fun b => (b, b, b)) b = id b := by
    intro b hbm
    simp only [Function.comp, majT, id]
    exact maj4_same (hb b (List.dropLast_subset x hbm))
  rw [List.map_congr_left this, List.map_id]

theorem roundtrip_drops_last_witness :
    (encWrite [65, 66]).bind decWrite = some [65] := by
  have h := roundtrip_drops_last [65, 66] (by decide) (by decide) (by decide)
    (by decide)
  simpa using h

/-! ### Claim C5 (code bug): zero-length writes go out of bounds -/

/-- C5: a zero-length write reaches the store `temp[len-1] = 0` with
`len = 0`, an access one cell before the scratch buffer, on both devices;
the model reports it as `none`.  (On the encoder, were the store harmless,
the fresh device would then still report a 1-byte output `[0]`, not an empty
one.) -/
theorem zero_length_write_oob : encWrite [] = none ∧ decWrite [] = none :=
  ⟨rfl, rfl⟩

/-! ### Claim C4 (corrected): max-length encode yields 766, not 769 -/

/-- C4 counterexample: a 256-byte zero-free input produces a recorded length
of 766, not the claimed 769: the forced terminator erases the 256th byte, so
only 255 bytes are triplicated (`3*255 + 1 = 766`). -/
theorem encode_max_length_cex :
    (encWrite (List.replicate 256 65)).map List.length = some 766 ∧
      (766 : Nat) ≠ 769 :=
  ⟨by rfl, by decide⟩

/-- C4 amended: for a 256-byte zero-free input the encoder records
`messageSize = 766` (255 triplicated bytes plus the stored terminator, the
input's final byte having been overwritten by the forced terminator), and
every store of the write lies inside the 769-byte `message[]` buffer. -/
theorem encode_max_length_is_766 (x : List Nat) (hlen : x.length = 256)
    (hz : ∀ b ∈ x, b ≠ 0) :
    (encWrite x).map List.length = some 766 ∧
      ∀ j ∈ encStoreIdxs (encScanPrefix x).length, j < 769 := by
  have h1 : x ≠ [] := List.ne_nil_of_length_pos (by omega)
  have h2 : x.length ≤ 256 := by omega
  have hzd : ∀ b ∈ x.dropLast, b ≠ 0 := fun b hbm => hz b (List.dropLast_subset x hbm)
  constructor
  · rw [encWrite_eq h1 h2 hzd]
    have hL : (x.dropLast.flatMap triple ++ [0]).length = 766 := by
      rw [List.length_append, length_flatMap_triple, List.length_dropLast, hlen]
      rfl
    rw [Option.map_some', hL]
  · exact encStoreIdxs_lt (encScanPrefix_le x)

theorem encode_max_length_is_766_witness :
    (encWrite (List.replicate 256 66)).map List.length = some 766 ∧
      ∀ j ∈ encStoreIdxs (encScanPrefix (List.replicate 256 66)).length, j < 769 :=
  encode_max_length_is_766 (List.replicate 256 66)
    (by rw [List.length_replicate])
    (fun b hb => by rw [List.mem_replicate] at hb; omega)

/-! ### Claim C8 (confirmed): the final written byte is never encoded -/

/-- C8: a write of length `1 ≤ L ≤ 256` zeroes scratch cell `L-1` before the
scan, the pending output triples only bytes of the first `L-1` input bytes,
and the output is unchanged if the final written byte is replaced by any
other byte. -/
theorem encoder_drops_final_byte (x : List Nat) (h1 : x ≠ []) (h2 : x.length ≤ 256) :
    (encTempBuf x).getD (x.length - 1) 1 = 0 ∧
    encWrite x = some ((x.dropLast.takeWhile (fun b => b != 0)).flatMap triple ++ [0]) ∧
    ∀ b : Nat, encWrite (x.dropLast ++ [b]) = encWrite x := by
  refine ⟨?_, encWrite_takeWhile h1 h2, ?_⟩
  · rw [encTempBuf_eq h2]
    have hd : x.dropLast.length = x.length - 1 := List.length_dropLast x
    rw [← hd, List.getD_append_right _ _ _ _ (le_refl _)]
    simp
  · intro b
    have hlen : (x.dropLast ++ [b]).length = x.length := by
      simp only [List.length_append, List.length_dropLast, List.length_singleton]
      have := List.length_pos_of_ne_nil h1
      omega
    have h1' : x.dropLast ++ [b] ≠ [] := by simp
    have h2' : (x.dropLast ++ [b]).length ≤ 256 := by omega
    rw [encWrite_takeWhile h1' h2', encWrite_takeWhile h1 h2, List.dropLast_concat]

theorem encoder_drops_final_byte_witness :
    encWrite [65, 99] = encWrite [65, 66] ∧
      encWrite [65, 66] = some [65, 65, 65, 0] :=
  ⟨(encoder_drops_final_byte [65, 66] (by decide) (by decide)).2.2 99, by rfl⟩

/-! ### Claim C3 (corrected): corruption tolerance up to the dropped byte -/

theorem xor_byte_lt {a m : Nat} (ha : a < 256) (hm : m < 256) : a ^^^ m < 256 := by
  have h8 : (256 : Nat) = 2 ^ 8 := by norm_num
  rw [h8] at ha hm ⊢
  exact Nat.xor_lt_two_pow ha hm

theorem getD_dropLast {l : List Nat} {j : Nat} (h : j < l.length - 1) (d : Nat) :
    l.dropLast.getD j d = l.getD j d := by
  rw [List.dropLast_eq_take, List.getD_eq_getElem?_getD, List.getD_eq_getElem?_getD,
    List.getElem?_take_of_lt h]

/-- Replacing byte `3j + t` of a triplicated sequence replaces copy `t` of
triplet `j` only. -/
theorem set_flatMap_triple (v : Nat) :
    ∀ (l : List Nat) (j t : Nat), j < l.length → t < 3 →
    (l.flatMap triple).set (3 * j + t) v =
      (l.take j).flatMap triple ++ (triple (l.getD j 0)).set t v ++
        (l.drop (j + 1)).flatMap triple := by
  intro l
  induction l with
  | nil => intro j t hj _; simp at hj
  | cons a l ih =>
      intro j t hj ht
      cases j with
      | zero =>
          simp only [List.flatMap_cons, Nat.mul_zero, Nat.zero_add, List.take_zero,
            List.flatMap_nil, List.nil_append, List.drop_succ_cons, List.drop_zero,
            List.getD_cons_zero]
          exact List.set_append_left t v (by simp [triple]; omega)
      | succ j =>
          have hj' : j < l.length := by simpa using hj
          have hidx : 3 * (j + 1) + t = (triple a).length + (3 * j + t) := by
            simp [triple]; omega
          simp only [List.flatMap_cons, List.take_succ_cons, List.drop_succ_cons,
            List.getD_cons_succ]
          rw [hidx, List.set_append_right _ _ (Nat.le_add_right _ _), Nat.add_sub_cancel_left,
            ih j t hj' ht]
          simp only [List.append_assoc]

/-- The three bytes of a triplet with copy `t` replaced by `v`. -/
theorem triple_set_eq_corruptTuple {b v t : Nat} (ht : t < 3) :
    (triple b).set t v =
      [(corruptTuple t v b).1, (corruptTuple t v b).2.1, (corruptTuple t v b).2.2] := by
  match t with
  | 0 => rfl
  | 1 => rfl
  | 2 => rfl
  | n + 3 => omega

theorem majT_corruptTuple {t v b : Nat} (ht : t < 3) (hv : v < 256) (hb : b < 256) :
    majT (corruptTuple t v b) = b := by
  match t with
  | 0 => exact maj4_recover_first hv hb
  | 1 => exact maj4_recover_second hv hb
  | 2 => exact maj4_recover_third hv hb
  | n + 3 => omega

theorem corruptTuple_fst_ne_zero {t v b : Nat} (ht : t < 3) (hb : b ≠ 0)
    (hv : t = 0 → v ≠ 0) : (corruptTuple t v b).1 ≠ 0 := by
  match t with
  | 0 => exact hv rfl
  | 1 => exact hb
  | 2 => exact hb
  | n + 3 => omega

/-- C3 counterexample: for `x = [65, 66]` the encoded form is
`[65, 65, 65, 0]` (the second input byte is already gone), and after
corrupting copy 1 of triplet 0 to `67` the decoder recovers `[65]`, not
`x = [65, 66]`. -/
theorem corruption_tolerance_cex :
    encWrite [65, 66] = some [65, 65, 65, 0] ∧
      decWrite ([65, 65, 65, 0].set 0 67) = some [65] ∧
      some ([65] : List Nat) ≠ some [65, 66] :=
  ⟨by rfl, by rfl, by decide⟩

/-- C3 amended: for a nonempty zero-free input of length ≤ 256, flipping any
subset `m` of bits in copy `t` of triplet `j` of the encoded output (provided
a corrupted triplet-start byte does not become zero) still decodes to
`x.dropLast` — the same result as without corruption; the final input byte
was already removed by the encoder's forced terminator. -/
theorem single_copy_corruption (x : List Nat) (j t m : Nat)
    (h1 : x ≠ []) (h2 : x.length ≤ 256)
    (hb : ∀ b ∈ x, b < 256) (hz : ∀ b ∈ x, b ≠ 0)
    (hj : j < x.length - 1) (ht : t < 3) (hm : m < 256)
    (hnz : t = 0 → x.getD j 0 ^^^ m ≠ 0) :
    encWrite x = some (x.dropLast.flatMap triple ++ [0]) ∧
    decWrite ((x.dropLast.flatMap triple ++ [0]).set (3 * j + t) (x.getD j 0 ^^^ m))
      = some x.dropLast := by
  have hzd : ∀ b ∈ x.dropLast, b ≠ 0 := fun b hbm => hz b (List.dropLast_subset x hbm)
  refine ⟨encWrite_eq h1 h2 hzd, ?_⟩
  set l : List Nat := x.dropLast with hl
  have hlj : j < l.length := by rw [hl, List.length_dropLast]; omega
  set b : Nat := l.getD j 0 with hbdef
  have hbx : b = x.getD j 0 := by rw [hbdef, hl]; exact getD_dropLast hj 0
  set v : Nat := x.getD j 0 ^^^ m with hv
  have hbmem : b ∈ l := by
    rw [hbdef]
    rw [List.getD_eq_getElem l 0 hlj]
    exact List.getElem_mem hlj
  have hblt : b < 256 := hb b (List.dropLast_subset x hbmem)
  have hbne : b ≠ 0 := hzd b hbmem
  have hvlt : v < 256 := by rw [hv, ← hbx]; exact xor_byte_lt hblt hm
  have hvne : t = 0 → v ≠ 0 := hnz
  have hset1 : (l.flatMap triple ++ [0]).set (3 * j + t) v =
      (l.flatMap triple).set (3 * j + t) v ++ [0] := by
    apply List.set_append_left
    rw [length_flatMap_triple]
    omega
  rw [hset1, set_flatMap_triple v l j t hlj ht]
  set ts : List (Nat × Nat × Nat) :=
    (l.take j).map (fun b => (b, b, b)) ++ [corruptTuple t v b] ++
      (l.drop (j + 1)).map (fun b => (b, b, b)) with hts
  have hflat : (l.take j).flatMap triple ++ (triple b).set t v ++
      (l.drop (j + 1)).flatMap triple = flatTriples ts := by
    rw [hts, flatTriples, List.flatMap_append, List.flatMap_append]
    rw [triple_set_eq_corruptTuple ht]
    rw [← flatTriples, ← flatTriples, ← flatTriples,
      flatTriples_map_diag, flatTriples_map_diag]
    rfl
  rw [hflat]
  have hcorrupt : (corruptTuple t v b).1 ≠ 0 := corruptTuple_fst_ne_zero ht hbne hvne
  have hfirst : ∀ u ∈ ts, u.1 ≠ 0 := by
    intro u hu
    rw [hts] at hu
    simp only [List.mem_append, List.mem_map, List.mem_singleton] at hu
    rcases hu with (⟨w, hw, rfl⟩ | rfl) | ⟨w, hw, rfl⟩
    · exact hzd w (List.take_subset j l hw)
    · exact hcorrupt
    · exact hzd w (List.drop_subset (j + 1) l hw)
  have hlenflat : (flatTriples ts).length = 3 * l.length := by
    rw [hts, flatTriples, List.flatMap_append, List.flatMap_append]
    simp only [List.length_append]
    rw [← flatTriples, ← flatTriples, ← flatTriples,
      flatTriples_map_diag, flatTriples_map_diag,
      length_flatMap_triple, length_flatMap_triple]
    simp only [List.length_take, List.length_drop, flatTriples, List.flatMap_cons,
      List.flatMap_nil, List.append_nil, List.length_cons, List.length_nil]
    omega
  have hylen : (flatTriples ts ++ [0]).length = 3 * l.length + 1 := by
    rw [List.length_append, hlenflat]; rfl
  have hlle : l.length ≤ 255 := by rw [hl, List.length_dropLast]; omega
  unfold decWrite
  rw [if_neg (by omega), decTempBuf_eq (by omega)]
  rw [List.dropLast_concat, hylen]
  rw [decScan_flat ts _ hfirst]
  congr 1
  rw [hts]
  simp only [List.map_append, List.map_map, List.map_singleton]
  have hmt : majT (corruptTuple t v b) = b := majT_corruptTuple ht hvlt hblt
  rw [hmt]
  have htk : ∀ part : List Nat, (∀ w ∈ part, w ∈ l) →
      part.map (majT ∘ fun b => (b, b, b)) = part := by
    intro part hpart
    have : ∀ w ∈ part, (majT ∘ fun b => (b, b, b)) w = id w := by
      intro w hw
      simp only [Function.comp, majT, id]
      exact maj4_same (hb w (List.dropLast_subset x (hpart w hw)))
    rw [List.map_congr_left this, List.map_id]
  rw [htk (l.take j) (fun w hw => List.take_subset j l hw),
    htk (l.drop (j + 1)) (fun w hw => List.drop_subset (j + 1) l hw)]
  have hdrop : l.drop j = b :: l.drop (j + 1) := by
    rw [hbdef, List.getD_eq_getElem l 0 hlj]
    exact List.drop_eq_getElem_cons hlj
  calc l.take j ++ [b] ++ l.drop (j + 1)
      = l.take j ++ l.drop j := by rw [hdrop]; simp
    _ = l := List.take_append_drop j l

theorem single_copy_corruption_witness :
    encWrite [65, 66, 67] = some [65, 65, 65, 66, 66, 66, 0] ∧
      decWrite ([65, 65, 65, 66, 66, 66, 0].set 4 195) = some [65, 66] := by
  have h := single_copy_corruption [65, 66, 67] 1 1 129 (by decide) (by decide)
    (by decide) (by decide) (by decide) (by decide) (by decide) (by decide)
  simpa using h

/-! ### Claim C6 (corrected): trailing partial groups can contribute -/

theorem maj4_any_zero_zero (b : Nat) : maj4 b 0 0 = 0 := by
  simp [maj4]

theorem flatTriples_length (ts : List (Nat × Nat × Nat)) :
    (flatTriples ts).length = 3 * ts.length := by
  induction ts with
  | nil => rfl
  | cons t ts ih => simp [flatTriples] at ih ⊢; omega

theorem getD_replicate_zero {k i : Nat} (h : i < k) :
    (List.replicate k (0 : Nat)).getD i 1 = 0 := by
  rw [List.getD_eq_getElem _ _ (by simpa using h)]
  simp

theorem decTempBuf_length (y : List Nat) (h : y ≠ []) :
    (decTempBuf y).length = 769 := by
  unfold decTempBuf
  simp only [List.length_append, List.length_take, List.length_replicate,
    List.length_singleton]
  have := List.length_pos_of_ne_nil h
  omega

theorem decTempBuf_last (y : List Nat) (h : y ≠ []) :
    (decTempBuf y).getD 768 1 = 0 := by
  have h1 : 1 ≤ (y.take 769).length := by
    rw [List.length_take]
    have := List.length_pos_of_ne_nil h
    omega
  have h2 : (y.take 769).length ≤ 769 := by rw [List.length_take]; omega
  unfold decTempBuf
  rw [List.append_assoc]
  have hrep : ([0] ++ List.replicate (769 - (y.take 769).length) 0 : List Nat) =
      List.replicate (770 - (y.take 769).length) 0 := by
    rw [show (770 - (y.take 769).length) = (769 - (y.take 769).length) + 1 by omega,
      List.replicate_succ]
    rfl
  rw [hrep]
  have hA : ((y.take 769).take ((y.take 769).length - 1)).length =
      (y.take 769).length - 1 := by
    rw [List.length_take]; omega
  rw [List.getD_append_right _ _ _ _ (by omega), hA]
  exact getD_replicate_zero (by omega)

/-- The decoder's write never leaves the scan without a stopping zero: for
every nonempty write the scan halts inside the buffer (no out-of-bounds
read). -/
theorem decWrite_isSome (y : List Nat) (h : y ≠ []) :
    (decWrite y).isSome = true := by
  unfold decWrite
  rw [if_neg (by simpa using h)]
  have hlen : (decTempBuf y).length = 769 := decTempBuf_length y h
  have hlast : (decTempBuf y).getD 768 1 = 0 := decTempBuf_last y h
  have hsplit : decTempBuf y = (decTempBuf y).take 768 ++ 0 :: [] := by
    have hdrop : (decTempBuf y).drop 768 = [0] := by
      have h768 : 768 < (decTempBuf y).length := by omega
      rw [List.drop_eq_getElem_cons h768]
      have hnil : (decTempBuf y).drop 769 = [] := by
        apply List.drop_eq_nil_of_le
        omega
      rw [hnil]
      rw [List.getD_eq_getElem _ 1 h768] at hlast
      rw [hlast]
    calc decTempBuf y = (decTempBuf y).take 768 ++ (decTempBuf y).drop 768 :=
          (List.take_append_drop 768 (decTempBuf y)).symm
      _ = (decTempBuf y).take 768 ++ 0 :: [] := by rw [hdrop]
  rw [hsplit]
  apply decScan_isSome_of_zero
  rw [List.length_take]
  omega

/-- C6 counterexample: the 5-byte write `[65, 65, 65, 66, 66]` (length not a
multiple of 3) decodes to two bytes, not one: the trailing partial group
starting with the nonzero byte 66 contributes the extra decoded byte 0. -/
theorem dec_partial_group_cex :
    ([65, 65, 65, 66, 66] : List Nat).length % 3 ≠ 0 ∧
      decWrite [65, 65, 65, 66, 66] = some [65, 0] ∧
      (decWrite [65, 65, 65, 66, 66]).map List.length ≠ some 1 :=
  ⟨by decide, by rfl, by decide⟩

/-- C6 amended: the decoder never reads out of bounds, and a trailing
partial group is ignored only when its first byte ends up zero: after a run
of nonzero-start triplets, a 1-byte tail is zeroed by the forced terminator
and ignored; a 2-byte tail whose first byte `b` is zero is likewise
ignored, but when `b ≠ 0` the partial group contributes one extra decoded
byte `maj4 b 0 0 = 0`. -/
theorem dec_partial_group (ts : List (Nat × Nat × Nat)) (b d : Nat)
    (hts : ∀ u ∈ ts, u.1 ≠ 0) (hlen : 3 * ts.length + 2 ≤ 769) :
    decWrite (flatTriples ts ++ [b]) = some (ts.map majT) ∧
    (b = 0 → decWrite (flatTriples ts ++ [b, d]) = some (ts.map majT)) ∧
    (b ≠ 0 → decWrite (flatTriples ts ++ [b, d]) = some (ts.map majT ++ [0])) ∧
    (∀ y : List Nat, y ≠ [] → (decWrite y).isSome = true) := by
  have hflat : (flatTriples ts).length = 3 * ts.length := flatTriples_length ts
  refine ⟨?_, ?_, ?_, fun y hy => decWrite_isSome y hy⟩
  · have hylen : (flatTriples ts ++ [b]).length = 3 * ts.length + 1 := by
      rw [List.length_append, hflat]; rfl
    unfold decWrite
    rw [if_neg (by omega), decTempBuf_eq (by omega), List.dropLast_concat, hylen]
    exact decScan_flat ts _ hts
  · intro hb0
    have hylen : (flatTriples ts ++ [b, d]).length = 3 * ts.length + 2 := by
      rw [List.length_append, hflat]; rfl
    unfold decWrite
    rw [if_neg (by omega), decTempBuf_eq (by omega)]
    have hdl : (flatTriples ts ++ [b, d]).dropLast = flatTriples ts ++ [b] := by
      rw [show ([b, d] : List Nat) = [b] ++ [d] from rfl, ← List.append_assoc]
      exact List.dropLast_concat
    rw [hdl, hylen, hb0, List.append_assoc]
    have : ([(0 : Nat)] ++ 0 :: List.replicate (769 - (3 * ts.length + 2)) 0) =
        0 :: (0 :: List.replicate (769 - (3 * ts.length + 2)) 0) := rfl
    rw [this]
    exact decScan_flat ts _ hts
  · intro hbne
    have hylen : (flatTriples ts ++ [b, d]).length = 3 * ts.length + 2 := by
      rw [List.length_append, hflat]; rfl
    unfold decWrite
    rw [if_neg (by omega), decTempBuf_eq (by omega)]
    have hdl : (flatTriples ts ++ [b, d]).dropLast = flatTriples ts ++ [b] := by
      rw [show ([b, d] : List Nat) = [b] ++ [d] from rfl, ← List.append_assoc]
      exact List.dropLast_concat
    rw [hdl, hylen, List.append_assoc]
    have hzeros : ([b] ++ 0 :: List.replicate (769 - (3 * ts.length + 2)) 0 : List Nat) =
        b :: List.replicate (768 - 3 * ts.length) 0 := by
      have : (768 - 3 * ts.length) = (769 - (3 * ts.length + 2)) + 1 := by omega
      rw [this, List.replicate_succ]
      rfl
    rw [hzeros, decScan_flat_partial ts b _ hts hbne (by omega), maj4_any_zero_zero]

theorem dec_partial_group_witness :
    decWrite [65, 65, 65, 66] = some [65] ∧
      decWrite [65, 65, 65, 66, 66] = some [65, 0] := by
  have h := dec_partial_group [(65, 65, 65)] 66 66 (by decide) (by decide)
  exact ⟨h.1, h.2.2.1 (by decide)⟩

/-! ### Claim C7 (confirmed): reads before a write are empty; reads clear -/

theorem devRun_msgSize_zero (W : DevState → List Nat → DevState)
    (ops : List DevOp) (h : ∀ x, DevOp.write x ∉ ops) :
    ∀ s : DevState, s.msgSize = 0 → (devRun W s ops).msgSize = 0 := by
  induction ops with
  | nil => intro s hs; exact hs
  | cons op ops ih =>
      intro s hs
      have hop : ∀ x, DevOp.write x ∉ ops := fun x hx => h x (List.mem_cons_of_mem _ hx)
      show (devRun W (devStep W s op) ops).msgSize = 0
      cases op with
      | opn => exact ih hop _ hs
      | read => exact ih hop _ rfl
      | write x => exact absurd (List.mem_cons_self _ _) (h x)

theorem devRead_empty_of_msgSize_zero (s : DevState) (h : s.msgSize = 0) :
    (devRead false s).2.1 = [] ∧ (devRead false s).1 = 0 := by
  unfold devRead
  rw [h]
  exact ⟨rfl, rfl⟩

/-- C7: on either device (any write behaviour `W`, any buffer size), a read
issued after any write-free operation sequence from the initial state
returns zero bytes with return value 0, and because every read clears
`messageSize`, a read after a read followed by any write-free sequence also
returns zero bytes. -/
theorem read_before_write_empty (W : DevState → List Nat → DevState)
    (bufLen : Nat) (s : DevState) (ops : List DevOp)
    (h : ∀ x, DevOp.write x ∉ ops) :
    ((devRead false (devRun W (devInit bufLen) ops)).2.1 = [] ∧
      (devRead false (devRun W (devInit bufLen) ops)).1 = 0) ∧
    ((devRead false (devRun W (devRead false s).2.2 ops)).2.1 = [] ∧
      (devRead false (devRun W (devRead false s).2.2 ops)).1 = 0) :=
  ⟨devRead_empty_of_msgSize_zero _ (devRun_msgSize_zero W ops h (devInit bufLen) rfl),
    devRead_empty_of_msgSize_zero _ (devRun_msgSize_zero W ops h (devRead false s).2.2 rfl)⟩

theorem read_before_write_empty_witness :
    ((devRead false (devRun (fun s _ => s) (devInit 769)
        [DevOp.opn, DevOp.read])).2.1 = [] ∧
      (devRead false (devRun (fun s _ => s) (devInit 769)
        [DevOp.opn, DevOp.read])).1 = 0) ∧
    ((devRead false (devRun (fun s _ => s)
        (devRead false ⟨[7, 8], 2, 5⟩).2.2 [DevOp.opn, DevOp.read])).2.1 = [] ∧
      (devRead false (devRun (fun s _ => s)
        (devRead false ⟨[7, 8], 2, 5⟩).2.2 [DevOp.opn, DevOp.read])).1 = 0) :=
  read_before_write_empty (fun s _ => s) 769 ⟨[7, 8], 2, 5⟩ [DevOp.opn, DevOp.read]
    (by intro x hx; simp at hx)

/-! ### Claim C9 (confirmed): a failed read still discards the message -/

/-- C9: when `copy_to_user` fails, `dev_read` returns `-EFAULT = -14` yet
has already set `messageSize` to 0 — the same state update a successful
read performs — so the pending message is discarded; whenever a message was
pending, the state after the failed read differs from the state before. -/
theorem failed_read_clears (s : DevState) :
    (devRead true s).1 = -14 ∧
    ((devRead true s).2.2).msgSize = 0 ∧
    (devRead true s).2.2 = (devRead false s).2.2 ∧
    (s.msgSize ≠ 0 → (devRead true s).2.2 ≠ s) := by
  refine ⟨rfl, rfl, rfl, fun h hEq => h ?_⟩
  have := congrArg DevState.msgSize hEq
  exact this.symm

theorem failed_read_clears_witness :
    (devRead true ⟨[7], 1, 0⟩).1 = -14 ∧
      (devRead true ⟨[7], 1, 0⟩).2.2 ≠ (⟨[7], 1, 0⟩ : DevState) :=
  ⟨(failed_read_clears ⟨[7], 1, 0⟩).1,
    (failed_read_clears ⟨[7], 1, 0⟩).2.2.2 (by decide)⟩

/-! ### Claim C10 (confirmed): the terminator invariant keeps all accesses
in bounds -/

/-- One write of length ≥ 1 (clamped to `N`) preserves the invariant that
the scratch buffer has length `N` and its last cell is zero: either the
write fills the buffer and the forced terminator re-zeroes the last cell,
or the last cell is untouched and keeps its previous zero. -/
theorem tempStep_invariant {N : Nat} (hN : 1 ≤ N) (t x : List Nat)
    (htl : t.length = N) (h0 : t.getD (N - 1) 1 = 0) (hx : x ≠ []) :
    ((x.take N ++ t.drop (x.take N).length).set ((x.take N).length - 1) 0).length = N ∧
    ((x.take N ++ t.drop (x.take N).length).set ((x.take N).length - 1) 0).getD
      (N - 1) 1 = 0 := by
  have hn1 : 1 ≤ (x.take N).length := by
    rw [List.length_take]
    have := List.length_pos_of_ne_nil hx
    omega
  have hn2 : (x.take N).length ≤ N := by rw [List.length_take]; omega
  have hlen : (x.take N ++ t.drop (x.take N).length).length = N := by
    rw [List.length_append, List.length_drop, htl]
    omega
  refine ⟨by rw [List.length_set, hlen], ?_⟩
  rw [List.getD_eq_getElem _ 1 (by rw [List.length_set, hlen]; omega)]
  by_cases hfull : (x.take N).length = N
  · have hidx : (x.take N).length - 1 = N - 1 := by omega
    rw [hidx]
    exact List.getElem_set_self _
  · rw [List.getElem_set]
    rw [if_neg (by omega)]
    rw [List.getElem_append_right (by omega)]
    rw [List.getElem_drop]
    have hidx : (x.take N).length + (N - 1 - (x.take N).length) = N - 1 := by omega
    rw [List.getD_eq_getElem _ 1 (by omega)] at h0
    simp only [hidx]
    exact h0

theorem foldl_encTempStep_invariant :
    ∀ (ws : List (List Nat)), (∀ w ∈ ws, w ≠ []) →
    ∀ t : List Nat, t.length = 256 → t.getD 255 1 = 0 →
    (ws.foldl encTempStep t).length = 256 ∧ (ws.foldl encTempStep t).getD 255 1 = 0 := by
  intro ws
  induction ws with
  | nil => intro _ t h1 h2; exact ⟨h1, h2⟩
  | cons w ws ih =>
      intro h t h1 h2
      have hw : w ≠ [] := h w (List.mem_cons_self _ _)
      have hstep := tempStep_invariant (N := 256) (by norm_num) t w h1 h2 hw
      exact ih (fun u hu => h u (List.mem_cons_of_mem _ hu)) _ hstep.1 hstep.2

theorem foldl_decTempStep_invariant :
    ∀ (ws : List (List Nat)), (∀ w ∈ ws, w ≠ []) →
    ∀ t : List Nat, t.length = 769 → t.getD 768 1 = 0 →
    (ws.foldl decTempStep t).length = 769 ∧ (ws.foldl decTempStep t).getD 768 1 = 0 := by
  intro ws
  induction ws with
  | nil => intro _ t h1 h2; exact ⟨h1, h2⟩
  | cons w ws ih =>
      intro h t h1 h2
      have hw : w ≠ [] := h w (List.mem_cons_self _ _)
      have hstep := tempStep_invariant (N := 769) (by norm_num) t w h1 h2 hw
      exact ih (fun u hu => h u (List.mem_cons_of_mem _ hu)) _ hstep.1 hstep.2

/-- With a zero in the last scratch cell the encoder scan never runs past
index 255. -/
theorem scan_stops_before_256 (t : List Nat) (hlen : t.length = 256)
    (h0 : t.getD 255 1 = 0) : (t.takeWhile (fun b => b != 0)).length ≤ 255 := by
  by_contra hcon
  push_neg at hcon
  have hle := (List.takeWhile_sublist (l := t) (fun b => b != 0)).length_le
  have heq : (t.takeWhile (fun b => b != 0)).length = t.length := by omega
  have hself := List.Sublist.eq_of_length (List.takeWhile_sublist _) heq
  have hall := List.takeWhile_eq_self_iff.mp hself
  have hmem : t.getD 255 1 ∈ t := by
    rw [List.getD_eq_getElem t 1 (by omega)]
    exact List.getElem_mem _
  have := hall _ hmem
  rw [h0] at this
  simp at this

/-- With a zero in the last scratch cell the decoder scan halts inside the
buffer and emits at most 256 bytes. -/
theorem decScan_total (T : List Nat) (hlen : T.length = 769)
    (h0 : T.getD 768 1 = 0) :
    ∃ out, decScan T = some out ∧ out.length ≤ 256 := by
  have hsplit : T = T.take 768 ++ 0 :: [] := by
    have hdrop : T.drop 768 = [0] := by
      rw [List.drop_eq_getElem_cons (by omega)]
      rw [List.drop_eq_nil_of_le (by omega)]
      rw [List.getD_eq_getElem _ 1 (by omega)] at h0
      rw [h0]
    calc T = T.take 768 ++ T.drop 768 := (List.take_append_drop 768 T).symm
      _ = T.take 768 ++ 0 :: [] := by rw [hdrop]
  have hsome : (decScan T).isSome = true := by
    rw [hsplit]
    apply decScan_isSome_of_zero
    rw [List.length_take]
    omega
  obtain ⟨out, hout⟩ := Option.isSome_iff_exists.mp hsome
  refine ⟨out, hout, ?_⟩
  have := decScan_length_le T out hout
  omega

/-- C10: across every sequence of writes of length ≥ 1, the last scratch
cell stays zero on both devices (`temp[255]` for the encoder, `temp[768]`
for the decoder); from any scratch state satisfying that invariant the
encoder scan stops by index 255 with all `message[]` stores below 769, and
the decoder scan halts inside the buffer emitting at most 256 bytes, so
its stores stay below index 256. -/
theorem scratch_terminator_invariant :
    (∀ ws : List (List Nat), (∀ w ∈ ws, w ≠ []) →
        (encTempRun ws).length = 256 ∧ (encTempRun ws).getD 255 1 = 0) ∧
    (∀ t : List Nat, t.length = 256 → t.getD 255 1 = 0 →
        (t.takeWhile (fun b => b != 0)).length ≤ 255 ∧
          ∀ j ∈ encStoreIdxs (t.takeWhile (fun b => b != 0)).length, j < 769) ∧
    (∀ ws : List (List Nat), (∀ w ∈ ws, w ≠ []) →
        (decTempRun ws).length = 769 ∧ (decTempRun ws).getD 768 1 = 0) ∧
    (∀ T : List Nat, T.length = 769 → T.getD 768 1 = 0 →
        ∃ out, decScan T = some out ∧ out.length ≤ 256) := by
  refine ⟨?_, ?_, ?_, decScan_total⟩
  · intro ws h
    exact foldl_encTempStep_invariant ws h (List.replicate 256 0) (by simp)
      (getD_replicate_zero (by norm_num))
  · intro t h1 h2
    have hstop := scan_stops_before_256 t h1 h2
    exact ⟨hstop, encStoreIdxs_lt hstop⟩
  · intro ws h
    exact foldl_decTempStep_invariant ws h (List.replicate 769 0) (by simp)
      (getD_replicate_zero (by norm_num))

theorem scratch_terminator_invariant_witness :
    ((encTempRun [[65]]).length = 256 ∧ (encTempRun [[65]]).getD 255 1 = 0) ∧
    ((decTempRun [[65]]).length = 769 ∧ (decTempRun [[65]]).getD 768 1 = 0) ∧
    (∃ out, decScan (List.replicate 769 0) = some out ∧ out.length ≤ 256) := by
  obtain ⟨h1, _, h3, h4⟩ := scratch_terminator_invariant
  exact ⟨h1 [[65]] (by decide), h3 [[65]] (by decide),
    h4 (List.replicate 769 0) (by simp) (getD_replicate_zero (by norm_num))⟩

end RepeatCode
